import Mathlib

/-!
Verification of the documentation-build helper `source/util/builddocs.py`.

The script has four phases:
  1. walk the `collections` tree, mirror its directories under `doc/api/`,
     and collect the `.nim` files;
  2./3. for each collected file, copy its content to `doc/api/<path>` and at
     once invoke `nim doc` on the copy (one loop does both);
  3b. walk `doc/`, invoking `nim rst2html` on every `.rst` file whose path
     does not contain `#`;
  4. walk `doc/`, rewriting every `.html` file whose path does not contain
     `doc/api/` through `postprocess_html`.

The pure core, `postprocess_html`, is embedded below together with faithful
models of Python `str.splitlines`, `'\n'.join`, `os.walk` (which, with its
default `onerror=None`, silently yields nothing on a missing root), guarded
`os.mkdir`, and the event trace the script produces.
-/

/-- The `STYLE` constant of the script: the stylesheet-link snippet,
with a leading and a trailing newline, appended as a single element. -/
def STYLE : String := "\n<link href=\"https://maxcdn.bootstrapcdn.com/bootstrap/3.3.6/css/bootstrap.min.css\" rel=stylesheet>\n"

/-- The exact opening-tag line tested by `postprocess_html`. -/
def styleOpen : String := "<style type=\"text/css\" >"

/-- The exact closing-tag line tested by `postprocess_html`. -/
def styleClose : String := "</style>"

/-- The characters Python `str.splitlines` treats as line boundaries
(`\n`, `\r`, `\v`, `\f`, FS, GS, RS, NEL, LS, PS; `\r\n` is one boundary). -/
def isBreakChar (c : Char) : Bool :=
  c == '\n' || c == '\r' || c == '\x0b' || c == '\x0c' ||
  c == '\x1c' || c == '\x1d' || c == '\x1e' || c == '\x85' ||
  c == '\u2028' || c == '\u2029'

/-- Worker for `splitlines`: `acc` holds the current line reversed, and
`prevCR` records that the previous character was a `'\r'` whose line was
already terminated, so that an immediately following `'\n'` is part of the
same `"\r\n"` boundary and is skipped.  A trailing line boundary terminates
the last line without adding an empty line, exactly as in Python
(`"a\n".splitlines() = ["a"]`). -/
def splitlinesAux (prevCR : Bool) (acc : List Char) : List Char → List String
  | [] => if acc.isEmpty then [] else [String.mk acc.reverse]
  | c :: rest =>
    if prevCR ∧ c = '\n' then splitlinesAux false acc rest
    else if c = '\r' then String.mk acc.reverse :: splitlinesAux true [] rest
    else if isBreakChar c then String.mk acc.reverse :: splitlinesAux false [] rest
    else splitlinesAux false (c :: acc) rest

/-- Python `data.splitlines()`. -/
def splitlines (s : String) : List String := splitlinesAux false [] s.data

/-- Python `'\n'.join(out)`. -/
def joinNl : List String → String
  | [] => ""
  | [a] => a
  | a :: b :: rest => a ++ "\n" ++ joinNl (b :: rest)

/-- The body of the `for line in data.splitlines()` loop of
`postprocess_html`, transcribing its three consecutive `if` statements:
returns the list of strings appended to `out` for every line together with
the final value of the `css` flag.  Note the closing tag first clears `css`
and is then appended (the third `if` sees `css = False`). -/
def runLines : List String → Bool → List String × Bool
  | [], css => ([], css)
  | line :: rest, css =>
    let out0 : List String := if line = styleOpen then [STYLE] else []
    let css0 : Bool := if line = styleOpen then true else css
    let css1 : Bool := if line = styleClose then false else css0
    let out1 : List String := if css1 then out0 else out0 ++ [line]
    let r := runLines rest css1
    (out1 ++ r.1, r.2)

/-- `postprocess_html(data)`: split into lines, run the filtering loop with
`css` initially false, and rejoin with `'\n'`. -/
def postprocess_html (data : String) : String :=
  joinNl (runLines (splitlines data) false).1

/-- Remove one final `'\n'`, if present: the discrepancy introduced by
`'\n'.join` after `splitlines`. -/
def dropLastNl (l : List Char) : List Char :=
  if l.getLast? = some '\n' then l.dropLast else l

/-- Number of lines equal to the opening style tag. -/
def countOpen : List String → Nat
  | [] => 0
  | l :: rest => (if l = styleOpen then 1 else 0) + countOpen rest

/-! ### Filesystem model and the script's event trace

Directories are finite trees.  To keep structural recursion simple the
subdirectory list is a mutually inductive type.  Paths are modelled as
segment lists; `renderPath` produces the `os.path.join`-style string the
script actually manipulates (POSIX `join(root, name) = root ++ "/" ++ name`).
-/

mutual
/-- A directory: its regular files (name, content) and its subdirectories. -/
inductive FTree : Type where
  | node : List (String × String) → Subdirs → FTree
inductive Subdirs : Type where
  | nil : Subdirs
  | cons : String → FTree → Subdirs → Subdirs
end

/-- Names of the subdirectories, in enumeration order. -/
def subNames : Subdirs → List String
  | .nil => []
  | .cons n _ rest => n :: subNames rest

/-- Find a subdirectory by name. -/
def lookupSub : Subdirs → String → Option FTree
  | .nil, _ => none
  | .cons n t rest, d => if n = d then some t else lookupSub rest d

/-- Find a file's content by name. -/
def lookupFile : List (String × String) → String → Option String
  | [], _ => none
  | (n, c) :: rest, f => if n = f then some c else lookupFile rest f

/-- `"/".join`-style rendering of a segment path. -/
def renderPath : List String → String
  | [] => ""
  | [a] => a
  | a :: b :: rest => a ++ "/" ++ renderPath (b :: rest)

/-- `str.endswith` on the character list (Python semantics). -/
def strEndsWith (s suffix : String) : Bool := List.isPrefixOf suffix.data.reverse s.data.reverse

/-- Python `'#' in path` (a one-character needle is char containment). -/
def strHasChar (s : String) (c : Char) : Bool := s.data.contains c

/-- One `(root, dirs, files)` triple yielded by `os.walk` (with the root as
segments and files paired with their contents). -/
structure Frame where
  root : List String
  dnames : List String
  files : List (String × String)
deriving DecidableEq

mutual
/-- Top-down `os.walk` over a directory tree: the directory itself first,
then each subdirectory recursively, in enumeration order. -/
def walkTree (path : List String) : FTree → List Frame
  | .node files subs => ⟨path, subNames subs, files⟩ :: walkSubs path subs
def walkSubs (path : List String) : Subdirs → List Frame
  | .nil => []
  | .cons n t rest => walkTree (path ++ [n]) t ++ walkSubs path rest
end

/-- `os.walk("collections")`.  `none` models a missing scan root: with the
default `onerror=None`, `os.walk` swallows the scandir error and yields
nothing, so a missing root produces the empty sequence, not an exception. -/
def osWalkCollections : Option FTree → List Frame
  | some t => walkTree ["collections"] t
  | none => []

/-- Resolve a path inside the (optional) `collections` tree; this is what
`open(path, 'r').read()` sees for the paths the walk produced. -/
def readTree : List String → FTree → Option String
  | [], _ => none
  | [f], .node files _ => lookupFile files f
  | d :: e :: rest, .node _ subs =>
    match lookupSub subs d with
    | some t => readTree (e :: rest) t
    | none => none

/-- Read a `collections/...` path from the modelled working directory. -/
def readCol (col : Option FTree) : List String → Option String
  | "collections" :: rest =>
    match col with
    | some t => readTree rest t
    | none => none
  | _ => none

/-- Observable side effects of the script, in program order. -/
inductive Event : Type where
  | mkdir : String → Event
  | write : String → String → Event
  | exec : List String → Event
deriving DecidableEq

/-- The in-memory state built by the first walk loop: emitted events, the
set of directories that exist under the output root, and `nim_files`. -/
structure St where
  evs : List Event
  dirs : List String
  nims : List (List String)
deriving DecidableEq

/-- `os.mkdir`: raises `FileExistsError` when the directory exists. -/
def osMkdir (dirs : List String) (d : String) : Except String (List String) :=
  if d ∈ dirs then Except.error "FileExistsError" else Except.ok (d :: dirs)

/-- `if not os.path.exists(d): os.mkdir(d)` — the guarded creation used for
`doc/api` and for every mirrored directory. -/
def mkdirIfAbsent (st : St) (d : String) : Except String St :=
  if d ∈ st.dirs then Except.ok st
  else (osMkdir st.dirs d).map fun ds => ⟨st.evs ++ [Event.mkdir d], ds, st.nims⟩

/-- `new_dir = 'doc/api/' + root`: the mirrored directory of a frame. -/
def mirrorDir (fr : Frame) : String := "doc/api/" ++ renderPath fr.root

/-- The `.nim` files a frame contributes to `nim_files`, each as
`os.path.join(root, name)`. -/
def nimsOf (fr : Frame) : List (List String) :=
  (fr.files.filter fun f => strEndsWith f.1 ".nim").map fun f => fr.root ++ [f.1]

/-- Body of the first walk loop for one `(root, dirs, files)` triple:
guarded mkdir of the mirrored directory, then collect the `.nim` files. -/
def frameStep (st : St) (fr : Frame) : Except String St :=
  (mkdirIfAbsent st (mirrorDir fr)).map fun st1 =>
    ⟨st1.evs, st1.dirs, st1.nims ++ nimsOf fr⟩

/-- The first walk loop over all frames. -/
def stage1Loop (st : St) : List Frame → Except String St
  | [] => Except.ok st
  | fr :: rest =>
    match frameStep st fr with
    | Except.error e => Except.error e
    | Except.ok st2 => stage1Loop st2 rest

/-- Stage 1 (the Collector): ensure `doc/api` exists, then walk
`collections`, mirroring directories and collecting `nim_files`.
`dirs0` is the set of output directories existing before the run. -/
def stage1 (col : Option FTree) (dirs0 : List String) : Except String St :=
  match mkdirIfAbsent ⟨[], dirs0, []⟩ "doc/api" with
  | Except.error e => Except.error e
  | Except.ok st => stage1Loop st (osWalkCollections col)

/-- The fixed `--docSeeSrcUrl:` flag passed to `nim doc`. -/
def docSeeUrl : String := "--docSeeSrcUrl:https://github.com/zielmicha/reactor.nim/tree/master"

/-- Stages 2 and 3 (source branch): one loop that, for each collected file,
copies its content to `doc/api/<path>` and immediately invokes `nim doc` on
the copy.  A file that cannot be read raises (`IOError`), aborting the run. -/
def stage23 (col : Option FTree) : List (List String) → Except String (List Event)
  | [] => Except.ok []
  | p :: rest =>
    match readCol col p with
    | none => Except.error "IOError"
    | some c =>
      match stage23 col rest with
      | Except.error e => Except.error e
      | Except.ok evs =>
        Except.ok (Event.write ("doc/api/" ++ renderPath p) c ::
          Event.exec ["nim", "doc", docSeeUrl, "doc/api/" ++ renderPath p] :: evs)

/-- The `.rst` paths selected by the second walk: every file under `doc/`
whose joined path ends with `.rst` and does not contain `#`. -/
def rstPaths (t : FTree) : List String :=
  (walkTree ["doc"] t).flatMap fun fr =>
    (fr.files.map fun f => renderPath (fr.root ++ [f.1])).filter fun p =>
      strEndsWith p ".rst" && !(strHasChar p '#')

/-- Stage 3 (markup branch): `nim rst2html` on every selected `.rst` path. -/
def rstStage (t : FTree) : List Event :=
  (rstPaths t).map fun p => Event.exec ["nim", "rst2html", p]

/-- Does `p` occur as a contiguous run inside the list? -/
def infixAux (p : List Char) : List Char → Bool
  | [] => p.isEmpty
  | c :: t => List.isPrefixOf p (c :: t) || infixAux p t

/-- Substring test (Python `needle in hay`). -/
def containsStr (hay pat : String) : Bool := infixAux pat.data hay.data

/-- Stage 4: walk `doc/` again and rewrite through `postprocess_html` every
file whose path ends with `.html` and does not contain `doc/api/`. -/
def htmlStage (t : FTree) : List Event :=
  (walkTree ["doc"] t).flatMap fun fr =>
    fr.files.filterMap fun f =>
      let p := renderPath (fr.root ++ [f.1])
      if strEndsWith p ".html" && !(containsStr p "doc/api/") then
        some (Event.write p (postprocess_html f.2))
      else none

/-- The whole script as an event trace.  `docRst` and `docHtml` are the
states of the `doc/` tree observed by the third and fourth walks (they
include files produced by the external tools, which the model does not
predict). -/
def script (col : Option FTree) (dirs0 : List String) (docRst docHtml : FTree) :
    Except String (List Event) :=
  match stage1 col dirs0 with
  | Except.error e => Except.error e
  | Except.ok st =>
    match stage23 col st.nims with
    | Except.error e => Except.error e
    | Except.ok evs2 =>
      Except.ok (st.evs ++ evs2 ++ rstStage docRst ++ htmlStage docHtml)

/-- Is this event a directory creation? -/
def isMkdir : Event → Bool
  | Event.mkdir _ => true
  | _ => false

/-- Is this event a file write? -/
def isWrite : Event → Bool
  | Event.write _ _ => true
  | _ => false

/-- Is this event a `nim doc` invocation? -/
def isDocExec : Event → Bool
  | Event.exec ("nim" :: "doc" :: _) => true
  | _ => false

/-- Is this event a `nim rst2html` invocation? -/
def isRstExec : Event → Bool
  | Event.exec ("nim" :: "rst2html" :: _) => true
  | _ => false

/-- No duplicate names in a listing. -/
def nodupNames : List String → Bool
  | [] => true
  | x :: xs => !(xs.contains x) && nodupNames xs

mutual
/-- Well-formed directory tree: file names and subdirectory names are
duplicate-free at every level (true of any real filesystem listing). -/
def wfTree : FTree → Bool
  | .node files subs => nodupNames (files.map Prod.fst) && nodupNames (subNames subs) && wfSubs subs
def wfSubs : Subdirs → Bool
  | .nil => true
  | .cons _ t rest => wfTree t && wfSubs rest
end

/-- The pair `(n, t)` occurs as an entry of the subdirectory list. -/
def entryMem (n : String) (t : FTree) : Subdirs → Prop
  | .nil => False
  | .cons m u rest => (n = m ∧ t = u) ∨ entryMem n t rest

deriving instance DecidableEq for Except

/-! ### Properties of `postprocess_html` -/

theorem splitlinesAux_nl (acc : List Char) (rest : List Char) :
    splitlinesAux false acc ('\n' :: rest) =
      String.mk acc.reverse :: splitlinesAux false [] rest := by
  simp [splitlinesAux, isBreakChar]

theorem splitlinesAux_char (acc : List Char) (c : Char) (rest : List Char)
    (h1 : isBreakChar c = false) :
    splitlinesAux false acc (c :: rest) = splitlinesAux false (c :: acc) rest := by
  have h2 : ¬(c = '\r') := by intro h; subst h; simp [isBreakChar] at h1
  simp [splitlinesAux, h1, h2]

theorem splitlinesAux_ne_nil (l : List Char) (acc : List Char) (h : l ≠ []) :
    splitlinesAux false acc l ≠ [] := by
  induction l generalizing acc with
  | nil => exact absurd rfl h
  | cons c rest ih =>
    by_cases hb : isBreakChar c = true
    · by_cases hr : c = '\r'
      · subst hr; simp [splitlinesAux]
      · by_cases hn : c = '\n'
        · subst hn; rw [splitlinesAux_nl]; simp
        · simp [splitlinesAux, hr, hb]
    · rw [splitlinesAux_char acc c rest (by simpa using hb)]
      cases rest with
      | nil => simp [splitlinesAux]
      | cons d rest2 => exact ih (c :: acc) (by simp)

theorem mk_append (a b : List Char) : String.mk a ++ String.mk b = String.mk (a ++ b) := rfl

/-- `'\n'.join` is a left inverse of `splitlines` up to one dropped trailing
newline, for texts whose only line boundaries are `'\n'`. -/
theorem joinNl_splitlinesAux (l : List Char) (acc : List Char)
    (h : ∀ c ∈ l, isBreakChar c = true → c = '\n') :
    joinNl (splitlinesAux false acc l) = String.mk (acc.reverse ++ dropLastNl l) := by
  induction l generalizing acc with
  | nil => rcases acc with _ | ⟨a, as⟩ <;> simp [splitlinesAux, joinNl, dropLastNl]
  | cons c rest ih =>
    by_cases hb : isBreakChar c = true
    · have hn : c = '\n' := h c (by simp) hb
      subst hn
      rw [splitlinesAux_nl]
      cases rest with
      | nil => simp [splitlinesAux, joinNl, dropLastNl]
      | cons d rest2 =>
        have hne := splitlinesAux_ne_nil (d :: rest2) [] (by simp)
        rcases he : splitlinesAux false [] (d :: rest2) with _ | ⟨x, xs⟩
        · exact absurd he hne
        · have ihr := ih [] (fun c hc => h c (by simp [hc]))
          rw [he] at ihr
          have hj : joinNl (String.mk acc.reverse :: x :: xs) =
              String.mk acc.reverse ++ "\n" ++ joinNl (x :: xs) := rfl
          rw [hj, ihr]
          have hdl : dropLastNl ('\n' :: d :: rest2) = '\n' :: dropLastNl (d :: rest2) := by
            simp [dropLastNl]
            rcases hlast : (d :: rest2).getLast? with _ | e
            · simp at hlast
            · by_cases hle : e = '\n' <;> simp [hlast, hle, List.dropLast]
          rw [hdl, show ("\n" : String) = String.mk ['\n'] from rfl, mk_append, mk_append]
          simp
    · have hb2 : isBreakChar c = false := by simpa using hb
      rw [splitlinesAux_char acc c rest hb2]
      have ihr := ih (c :: acc) (fun x hx => h x (by simp [hx]))
      rw [ihr]
      have hdl : dropLastNl (c :: rest) = c :: dropLastNl rest := by
        have hcn : ¬(c = '\n') := by intro hh; subst hh; simp [isBreakChar] at hb2
        cases rest with
        | nil => simp [dropLastNl, hcn]
        | cons d rest2 =>
          simp [dropLastNl]
          rcases hlast : (d :: rest2).getLast? with _ | e
          · simp at hlast
          · by_cases hle : e = '\n' <;> simp [hlast, hle, List.dropLast]
      rw [hdl]
      simp

/-- The loop is a homomorphism with respect to list append: the second part
runs with the flag the first part ends in. -/
theorem runLines_append (a b : List String) (css : Bool) :
    runLines (a ++ b) css =
      ((runLines a css).1 ++ (runLines b (runLines a css).2).1,
        (runLines b (runLines a css).2).2) := by
  induction a generalizing css with
  | nil => simp [runLines]
  | cons l rest ih => simp [runLines, ih, List.append_assoc]

/-- With suppression off, a block with no opening tag passes through
unchanged (closing tags included: they are emitted after clearing the
already-clear flag). -/
theorem runLines_no_open (a : List String) (h : styleOpen ∉ a) :
    runLines a false = (a, false) := by
  induction a with
  | nil => rfl
  | cons l rest ih =>
    have h1 : ¬(l = styleOpen) := fun hh => h (by simp [hh])
    have h2 : styleOpen ∉ rest := fun hh => h (by simp [hh])
    simp [runLines, h1, ih h2]

/-- With suppression on and no closing tag ahead, nothing original is ever
emitted again: only one `STYLE` copy per further opening-tag line. -/
theorem runLines_suppress (a : List String) (h : styleClose ∉ a) :
    runLines a true = (List.replicate (countOpen a) STYLE, true) := by
  induction a with
  | nil => simp [runLines, countOpen]
  | cons l rest ih =>
    have h1 : ¬(l = styleClose) := fun hh => h (by simp [hh])
    have h2 : styleClose ∉ rest := fun hh => h (by simp [hh])
    by_cases hl : l = styleOpen
    · have h3 : ¬(styleOpen = styleClose) := by decide
      simp [runLines, hl, h1, h3, ih h2, countOpen, List.replicate_succ, Nat.add_comm]
    · simp [runLines, hl, h1, ih h2, countOpen]

theorem countOpen_eq_zero (a : List String) (h : styleOpen ∉ a) : countOpen a = 0 := by
  induction a with
  | nil => rfl
  | cons l rest ih =>
    have h1 : ¬(l = styleOpen) := fun hh => h (by simp [hh])
    simp [countOpen, h1, ih (fun hh => h (by simp [hh]))]

/-- A closing-tag line clears the flag and is then emitted, whatever the
flag was (the emission check runs after the flag is cleared). -/
theorem runLines_close (rest : List String) (css : Bool) :
    runLines (styleClose :: rest) css =
      (styleClose :: (runLines rest false).1, (runLines rest false).2) := by
  have h1 : ¬(styleClose = styleOpen) := by decide
  simp [runLines, h1]

/-- An opening-tag line emits `STYLE`, sets the flag, and is itself
suppressed, whatever the flag was. -/
theorem runLines_open (rest : List String) (css : Bool) :
    runLines (styleOpen :: rest) css =
      (STYLE :: (runLines rest true).1, (runLines rest true).2) := by
  have h1 : ¬(styleOpen = styleClose) := by decide
  simp [runLines, h1]

/-- C1 (corrected): a line exactly equal to `</style>` always clears the
suppression flag, but — contrary to the claim — it is then *emitted*,
because the emission check runs after the flag was cleared; on the
scenario input the output is the `STYLE` snippet, the closing tag line,
then `<p>hi</p>`. -/
theorem claim_C1 :
    (∀ (rest : List String) (css : Bool),
      runLines (styleClose :: rest) css =
        (styleClose :: (runLines rest false).1, (runLines rest false).2)) ∧
    postprocess_html "<style type=\"text/css\" >\nbody\x7bcolor:red\x7d\n</style>\n<p>hi</p>" =
      STYLE ++ "\n</style>\n<p>hi</p>" :=
  ⟨runLines_close, by decide⟩

/-- C1 counterexample: on the input consisting of the single line
`</style>` the post-processor emits that very line, so the closing tag is
not omitted from the output as claimed. -/
theorem claim_C1_cex : postprocess_html "</style>" ≠ "" := by decide

/-- C2 counterexample: an input with exactly one well-formed style section
still has the closing `</style>` tag in its output, so the block is not
removed in its entirety. -/
theorem claim_C2_cex :
    styleClose ∈ (runLines (splitlines
      "<style type=\"text/css\" >\ncolor:red\n</style>\n<p>hi</p>") false).1 := by decide

/-- C2 (corrected): on an input with exactly one well-formed style section
the post-processor removes the opening tag and the body and inserts exactly
one `STYLE` snippet in their place, but retains the closing tag line. -/
theorem claim_C2 (pre body suf : List String)
    (hp1 : styleOpen ∉ pre) ( _hp2 : styleClose ∉ pre)
    (hb1 : styleOpen ∉ body) (hb2 : styleClose ∉ body)
    (hs1 : styleOpen ∉ suf) ( _hs2 : styleClose ∉ suf) :
    (runLines (pre ++ styleOpen :: (body ++ styleClose :: suf)) false).1 =
      pre ++ STYLE :: styleClose :: suf := by
  rw [runLines_append, runLines_no_open pre hp1]
  rw [runLines_open, runLines_append, runLines_suppress body hb2]
  rw [runLines_close, runLines_no_open suf hs1, countOpen_eq_zero body hb1]
  simp

theorem claim_C2_witness :
    (styleOpen ∉ ["<html>"] ∧ styleClose ∉ ["<html>"] ∧
      styleOpen ∉ ["b1", "b2"] ∧ styleClose ∉ ["b1", "b2"] ∧
      styleOpen ∉ ["<p>t</p>"] ∧ styleClose ∉ ["<p>t</p>"]) ∧
    (runLines (["<html>"] ++ styleOpen :: (["b1", "b2"] ++ styleClose :: ["<p>t</p>"])) false).1 =
      ["<html>"] ++ STYLE :: styleClose :: ["<p>t</p>"] :=
  ⟨by decide, claim_C2 ["<html>"] ["b1", "b2"] ["<p>t</p>"]
    (by decide) (by decide) (by decide) (by decide) (by decide) (by decide)⟩

/-- C6 (confirmed): an input with no opening-tag line and no closing-tag
line passes through the loop unchanged; the output is the lines rejoined
with `'\n'`, which equals the input itself modulo one dropped final
newline whenever the input's line boundaries are plain `'\n'`. -/
theorem claim_C6 (data : String)
    (h : ∀ l ∈ splitlines data, l ≠ styleOpen ∧ l ≠ styleClose) :
    (runLines (splitlines data) false).1 = splitlines data ∧
    postprocess_html data = joinNl (splitlines data) ∧
    ((∀ c ∈ data.data, isBreakChar c = true → c = '\n') →
      postprocess_html data = String.mk (dropLastNl data.data)) := by
  have hno : styleOpen ∉ splitlines data := fun hm => (h _ hm).1 rfl
  have h1 := runLines_no_open _ hno
  refine ⟨by rw [h1], by rw [postprocess_html, h1], fun honly => ?_⟩
  rw [postprocess_html, h1]
  have h2 := joinNl_splitlinesAux data.data [] honly
  simpa [splitlines] using h2

theorem claim_C6_witness :
    (runLines (splitlines "<p>a</p>\n<p>b</p>\n") false).1 =
      splitlines "<p>a</p>\n<p>b</p>\n" :=
  (claim_C6 "<p>a</p>\n<p>b</p>\n" (by decide)).1

/-- C7 counterexample: `postprocess_html` is not idempotent — rejoining
with `'\n'` drops one trailing newline per application, so a second run
changes the text again (here `"a\n\n"` becomes `"a\n"` and then `"a"`). -/
theorem claim_C7_cex :
    postprocess_html (postprocess_html "a\n\n") ≠ postprocess_html "a\n\n" := by decide

/-- C7 (corrected): `postprocess_html` is not idempotent (see the
counterexample); a second application leaves its first output unchanged
whenever that output has no opening-tag line, uses only `'\n'` line
boundaries, and does not end with a newline — sufficient conditions,
discharged at a concrete input by the witness. -/
theorem claim_C7 (x : String)
    (h1 : styleOpen ∉ splitlines (postprocess_html x))
    (h2 : ∀ c ∈ (postprocess_html x).data, isBreakChar c = true → c = '\n')
    (h3 : (postprocess_html x).data.getLast? ≠ some '\n') :
    postprocess_html (postprocess_html x) = postprocess_html x := by
  have hp := runLines_no_open _ h1
  show joinNl (runLines (splitlines (postprocess_html x)) false).1 = postprocess_html x
  rw [hp]
  have h4 := joinNl_splitlinesAux (postprocess_html x).data [] h2
  have h5 : dropLastNl (postprocess_html x).data = (postprocess_html x).data := by
    simp [dropLastNl, h3]
  rw [show splitlines (postprocess_html x) =
    splitlinesAux false [] (postprocess_html x).data from rfl]
  rw [h4, h5]
  rfl

theorem claim_C7_witness :
    postprocess_html (postprocess_html "<style type=\"text/css\" >\nA\n</style>\nB") =
      postprocess_html "<style type=\"text/css\" >\nA\n</style>\nB" :=
  claim_C7 "<style type=\"text/css\" >\nA\n</style>\nB" (by decide) (by decide) (by decide)

/-- C10 (confirmed): after an opening-tag line with no closing tag anywhere
later, the `STYLE` snippet is emitted and every subsequent line of the file
is dropped (only further `STYLE` copies appear, one per further opening-tag
line); the suppression flag is never cleared again. -/
theorem claim_C10 (pre suf : List String) (h : styleClose ∉ suf) :
    (runLines (pre ++ styleOpen :: suf) false).1 =
      (runLines pre false).1 ++ STYLE :: List.replicate (countOpen suf) STYLE ∧
    (runLines (pre ++ styleOpen :: suf) false).2 = true := by
  rw [runLines_append, runLines_open, runLines_suppress suf h]
  simp

theorem claim_C10_witness :
    styleClose ∉ ["rest1", "rest2"] ∧
    ((runLines (["x"] ++ styleOpen :: ["rest1", "rest2"]) false).1 =
      (runLines ["x"] false).1 ++ STYLE :: List.replicate (countOpen ["rest1", "rest2"]) STYLE ∧
    (runLines (["x"] ++ styleOpen :: ["rest1", "rest2"]) false).2 = true) :=
  ⟨by decide, claim_C10 ["x"] ["rest1", "rest2"] (by decide)⟩

/-! ### Properties of the collector, export/compile loop, and trace order -/

theorem mkdirIfAbsent_eq (st : St) (d : String) :
    mkdirIfAbsent st d = Except.ok
      (if d ∈ st.dirs then st else ⟨st.evs ++ [Event.mkdir d], d :: st.dirs, st.nims⟩) := by
  by_cases h : d ∈ st.dirs <;> simp [mkdirIfAbsent, osMkdir, h, Except.map]

theorem frameStep_eq (st : St) (fr : Frame) :
    frameStep st fr = Except.ok
      (if mirrorDir fr ∈ st.dirs
        then ⟨st.evs, st.dirs, st.nims ++ nimsOf fr⟩
        else ⟨st.evs ++ [Event.mkdir (mirrorDir fr)], mirrorDir fr :: st.dirs,
          st.nims ++ nimsOf fr⟩) := by
  by_cases h : mirrorDir fr ∈ st.dirs <;> simp [frameStep, mkdirIfAbsent_eq, h, Except.map]

theorem stage1Loop_spec (frames : List Frame) (st : St) :
    ∃ st2, stage1Loop st frames = Except.ok st2 ∧
      st2.nims = st.nims ++ frames.flatMap nimsOf ∧
      st.dirs ⊆ st2.dirs ∧
      (∀ fr ∈ frames, mirrorDir fr ∈ st2.dirs) ∧
      ∃ newEvs, st2.evs = st.evs ++ newEvs ∧
        ∀ e ∈ newEvs, ∃ d, e = Event.mkdir d ∧ d ∉ st.dirs := by
  induction frames generalizing st with
  | nil => exact ⟨st, rfl, by simp, by simp, by simp, [], by simp, by simp⟩
  | cons fr rest ih =>
    by_cases h : mirrorDir fr ∈ st.dirs
    · obtain ⟨st2, hrun, hnims, hdirs, hmir, newEvs, hevs, hnew⟩ :=
        ih ⟨st.evs, st.dirs, st.nims ++ nimsOf fr⟩
      refine ⟨st2, ?_, ?_, ?_, ?_, newEvs, ?_, ?_⟩
      · simp [stage1Loop, frameStep_eq, h]; exact hrun
      · simp at hnims; simp [hnims]
      · exact fun d hd => hdirs hd
      · intro fr2 hfr2
        rcases List.mem_cons.mp hfr2 with h2 | h2
        · subst h2; exact hdirs h
        · exact hmir fr2 h2
      · simpa using hevs
      · intro e he
        obtain ⟨d, hd1, hd2⟩ := hnew e he
        exact ⟨d, hd1, hd2⟩
    · obtain ⟨st2, hrun, hnims, hdirs, hmir, newEvs, hevs, hnew⟩ :=
        ih ⟨st.evs ++ [Event.mkdir (mirrorDir fr)], mirrorDir fr :: st.dirs, st.nims ++ nimsOf fr⟩
      refine ⟨st2, ?_, ?_, ?_, ?_, Event.mkdir (mirrorDir fr) :: newEvs, ?_, ?_⟩
      · simp [stage1Loop, frameStep_eq, h]; exact hrun
      · simp at hnims; simp [hnims]
      · exact fun d hd => hdirs (by simp [hd])
      · intro fr2 hfr2
        rcases List.mem_cons.mp hfr2 with h2 | h2
        · subst h2; exact hdirs (by simp)
        · exact hmir fr2 h2
      · simp at hevs; simp [hevs]
      · intro e he
        rcases List.mem_cons.mp he with h2 | h2
        · exact ⟨mirrorDir fr, h2, h⟩
        · obtain ⟨d, hd1, hd2⟩ := hnew e h2
          exact ⟨d, hd1, fun hmem => hd2 (by simp [hmem])⟩

theorem stage1_spec (col : Option FTree) (dirs0 : List String) :
    ∃ st, stage1 col dirs0 = Except.ok st ∧
      st.nims = (osWalkCollections col).flatMap nimsOf ∧
      dirs0 ⊆ st.dirs ∧
      (∀ fr ∈ osWalkCollections col, mirrorDir fr ∈ st.dirs) ∧
      (∀ e ∈ st.evs, ∃ d, e = Event.mkdir d ∧ d ∉ dirs0) := by
  by_cases h : "doc/api" ∈ dirs0
  · obtain ⟨st2, hrun, hnims, hdirs, hmir, newEvs, hevs, hnew⟩ :=
      stage1Loop_spec (osWalkCollections col) ⟨[], dirs0, []⟩
    refine ⟨st2, ?_, by simpa using hnims, hdirs, hmir, ?_⟩
    · simp [stage1, mkdirIfAbsent_eq, h]; exact hrun
    · intro e he
      rw [hevs] at he
      simp at he
      exact hnew e he
  · obtain ⟨st2, hrun, hnims, hdirs, hmir, newEvs, hevs, hnew⟩ :=
      stage1Loop_spec (osWalkCollections col) ⟨[Event.mkdir "doc/api"], "doc/api" :: dirs0, []⟩
    refine ⟨st2, ?_, by simpa using hnims, fun d hd => hdirs (by simp [hd]), hmir, ?_⟩
    · simp [stage1, mkdirIfAbsent_eq, h]; exact hrun
    · intro e he
      rw [hevs] at he
      rcases List.mem_append.mp he with h2 | h2
      · simp at h2
        exact ⟨"doc/api", h2, h⟩
      · obtain ⟨d, hd1, hd2⟩ := hnew e h2
        exact ⟨d, hd1, fun hmem => hd2 (by simp [hmem])⟩

/-- C3 counterexample: with the scan root absent the Collector does not
fail at all — it returns successfully with no collected files — so it does
not fail with `PathNotFound` as claimed. -/
theorem claim_C3_cex :
    stage1 none [] = Except.ok ⟨[Event.mkdir "doc/api"], ["doc/api"], []⟩ ∧
    ∀ e : String, stage1 none [] ≠ Except.error e := by
  have h1 : stage1 none [] = Except.ok ⟨[Event.mkdir "doc/api"], ["doc/api"], []⟩ := by decide
  exact ⟨h1, fun e he => by rw [h1] at he; exact Except.noConfusion he⟩

/-- C3 (corrected): `os.walk` with its default `onerror=None` silently
swallows the error on a missing scan root, so the Collector never fails:
with the root absent it collects no source files and at most creates
`doc/api`; with any root present (empty directories included) it also
succeeds. -/
theorem claim_C3 :
    (∀ dirs0 : List String, ∃ st, stage1 none dirs0 = Except.ok st ∧ st.nims = [] ∧
      ∀ e ∈ st.evs, e = Event.mkdir "doc/api") ∧
    (∀ (t : FTree) (dirs0 : List String), ∃ st, stage1 (some t) dirs0 = Except.ok st) := by
  constructor
  · intro dirs0
    by_cases h : "doc/api" ∈ dirs0
    · refine ⟨⟨[], dirs0, []⟩, ?_, rfl, by simp⟩
      simp [stage1, mkdirIfAbsent_eq, h, osWalkCollections, stage1Loop]
    · refine ⟨⟨[Event.mkdir "doc/api"], "doc/api" :: dirs0, []⟩, ?_, rfl, by simp⟩
      simp [stage1, mkdirIfAbsent_eq, h, osWalkCollections, stage1Loop]
  · intro t dirs0
    obtain ⟨st, hst, _⟩ := stage1_spec (some t) dirs0
    exact ⟨st, hst⟩

theorem stage23_shape (col : Option FTree) (l : List (List String)) (evs : List Event)
    (h : stage23 col l = Except.ok evs) :
    evs.length = 2 * l.length ∧
    ∀ k (hk : k < l.length), ∃ c,
      readCol col (l.get ⟨k, hk⟩) = some c ∧
      evs.get? (2 * k) = some (Event.write ("doc/api/" ++ renderPath (l.get ⟨k, hk⟩)) c) ∧
      evs.get? (2 * k + 1) =
        some (Event.exec ["nim", "doc", docSeeUrl, "doc/api/" ++ renderPath (l.get ⟨k, hk⟩)]) := by
  induction l generalizing evs with
  | nil =>
    simp [stage23] at h
    subst h
    simp
  | cons p rest ih =>
    rw [stage23] at h
    rcases hr : readCol col p with _ | c <;> rw [hr] at h
    · exact absurd h (by simp)
    · rcases hs : stage23 col rest with e | evs2 <;> rw [hs] at h
      · exact absurd h (by simp)
      · simp at h
        subst h
        obtain ⟨hlen, hidx⟩ := ih evs2 hs
        constructor
        · simp [hlen]; omega
        · intro k hk
          cases k with
          | zero => exact ⟨c, hr, by simp, by simp⟩
          | succ k2 =>
            obtain ⟨c2, hc2, hw, he⟩ := hidx k2 (by simpa using hk)
            refine ⟨c2, hc2, ?_, ?_⟩
            · have : 2 * (k2 + 1) = (2 * k2 + 1) + 1 := by omega
              rw [this, List.get?_cons_succ, List.get?_cons_succ]
              exact hw
            · have : 2 * (k2 + 1) + 1 = (2 * k2 + 1 + 1) + 1 - 1 + 1 := by omega
              rw [show 2 * (k2 + 1) + 1 = (2 * k2 + 1) + 1 + 1 from by omega,
                List.get?_cons_succ, List.get?_cons_succ]
              exact he

theorem stage23_ok (col : Option FTree) (l : List (List String))
    (h : ∀ p ∈ l, ∃ c, readCol col p = some c) :
    ∃ evs, stage23 col l = Except.ok evs := by
  induction l with
  | nil => exact ⟨[], rfl⟩
  | cons p rest ih =>
    obtain ⟨c, hc⟩ := h p (by simp)
    obtain ⟨evs, hevs⟩ := ih (fun q hq => h q (by simp [hq]))
    exact ⟨_, by rw [stage23, hc, hevs]⟩

theorem stage23_mem_write (col : Option FTree) (l : List (List String)) (evs : List Event)
    (h : stage23 col l = Except.ok evs) (p : List String) (hp : p ∈ l) (c : String)
    (hc : readCol col p = some c) :
    Event.write ("doc/api/" ++ renderPath p) c ∈ evs := by
  induction l generalizing evs with
  | nil => simp at hp
  | cons q rest ih =>
    rw [stage23] at h
    rcases hr : readCol col q with _ | cq <;> rw [hr] at h
    · exact absurd h (by simp)
    · rcases hs : stage23 col rest with e | evs2 <;> rw [hs] at h
      · exact absurd h (by simp)
      · simp at h
        subst h
        rcases List.mem_cons.mp hp with h2 | h2
        · subst h2
          rw [hc] at hr
          simp at hr
          subst hr
          simp
        · simp [ih evs2 hs h2]

theorem stage23_events (col : Option FTree) (l : List (List String)) (evs : List Event)
    (h : stage23 col l = Except.ok evs) :
    ∀ e ∈ evs, isMkdir e = false ∧ isRstExec e = false := by
  induction l generalizing evs with
  | nil =>
    simp [stage23] at h
    subst h
    simp
  | cons p rest ih =>
    rw [stage23] at h
    rcases hr : readCol col p with _ | c <;> rw [hr] at h
    · exact absurd h (by simp)
    · rcases hs : stage23 col rest with e2 | evs2 <;> rw [hs] at h
      · exact absurd h (by simp)
      · simp at h
        subst h
        intro e he
        rcases List.mem_cons.mp he with h2 | h2
        · subst h2; exact ⟨rfl, rfl⟩
        · rcases List.mem_cons.mp h2 with h3 | h3
          · subst h3; exact ⟨rfl, rfl⟩
          · exact ih evs2 hs e h3

theorem rstStage_events (t : FTree) :
    ∀ e ∈ rstStage t, isMkdir e = false ∧ isWrite e = false ∧ isDocExec e = false ∧
      ∃ p, e = Event.exec ["nim", "rst2html", p] := by
  intro e he
  simp [rstStage] at he
  obtain ⟨p, hp, he2⟩ := he
  subst he2
  exact ⟨rfl, rfl, rfl, p, rfl⟩

theorem htmlStage_events (t : FTree) :
    ∀ e ∈ htmlStage t, isMkdir e = false ∧ isWrite e = true ∧ isDocExec e = false ∧
      isRstExec e = false := by
  intro e he
  simp only [htmlStage, List.mem_flatMap, List.mem_filterMap] at he
  obtain ⟨fr, hfr, ⟨fn, fc⟩, hf, he2⟩ := he
  simp only at he2
  by_cases hcond : (strEndsWith (renderPath (fr.root ++ [fn])) ".html" &&
      !containsStr (renderPath (fr.root ++ [fn])) "doc/api/") = true
  · rw [if_pos hcond] at he2
    obtain rfl : Event.write (renderPath (fr.root ++ [fn])) (postprocess_html fc) = e := by
      simpa using he2
    exact ⟨rfl, rfl, rfl, rfl⟩
  · rw [if_neg hcond] at he2
    exact absurd he2 (by simp)

theorem before_append (P Q : Event → Bool) (xs ys : List Event)
    (hx : ∀ e ∈ ys, P e = false) (hy : ∀ e ∈ xs, Q e = false) :
    ∀ i j a b, (xs ++ ys).get? i = some a → P a = true →
      (xs ++ ys).get? j = some b → Q b = true → i < j := by
  intro i j a b hi hPa hj hQb
  have hilt : i < xs.length := by
    by_contra hni
    push_neg at hni
    rw [List.get?_append_right hni] at hi
    have ha : a ∈ ys := List.get?_mem hi
    rw [hx a ha] at hPa
    exact Bool.noConfusion hPa
  have hjge : xs.length ≤ j := by
    by_contra hnj
    push_neg at hnj
    rw [List.get?_append hnj] at hj
    have hb : b ∈ xs := List.get?_mem hj
    rw [hy b hb] at hQb
    exact Bool.noConfusion hQb
  omega

/-- C4 (corrected): exports and compilations are interleaved per file by a
single loop: the trace of stages 2–3 has length `2·n`, with file `k`'s
export at index `2k` immediately followed by its own compilation at index
`2k+1` — so each file is compiled before the next file is exported, and it
is not the case that all exports precede all compilations. -/
theorem claim_C4 (col : Option FTree) (l : List (List String)) (evs : List Event)
    (h : stage23 col l = Except.ok evs) :
    evs.length = 2 * l.length ∧
    ∀ k (hk : k < l.length), ∃ c,
      readCol col (l.get ⟨k, hk⟩) = some c ∧
      evs.get? (2 * k) = some (Event.write ("doc/api/" ++ renderPath (l.get ⟨k, hk⟩)) c) ∧
      evs.get? (2 * k + 1) =
        some (Event.exec ["nim", "doc", docSeeUrl, "doc/api/" ++ renderPath (l.get ⟨k, hk⟩)]) :=
  stage23_shape col l evs h

/-- C4 counterexample: with two collected files the trace is
write, compile, write, compile — the first compilation (index 1) precedes
the second export (index 2), refuting "every export completes before any
compilation begins". -/
theorem claim_C4_cex :
    stage23 (some (FTree.node [("a.nim", "A"), ("b.nim", "B")] Subdirs.nil))
      [["collections", "a.nim"], ["collections", "b.nim"]] =
      Except.ok [Event.write "doc/api/collections/a.nim" "A",
        Event.exec ["nim", "doc", docSeeUrl, "doc/api/collections/a.nim"],
        Event.write "doc/api/collections/b.nim" "B",
        Event.exec ["nim", "doc", docSeeUrl, "doc/api/collections/b.nim"]] ∧
    ¬(∀ i j : Fin 4,
      isDocExec ([Event.write "doc/api/collections/a.nim" "A",
        Event.exec ["nim", "doc", docSeeUrl, "doc/api/collections/a.nim"],
        Event.write "doc/api/collections/b.nim" "B",
        Event.exec ["nim", "doc", docSeeUrl, "doc/api/collections/b.nim"]].get i) = true →
      isWrite ([Event.write "doc/api/collections/a.nim" "A",
        Event.exec ["nim", "doc", docSeeUrl, "doc/api/collections/a.nim"],
        Event.write "doc/api/collections/b.nim" "B",
        Event.exec ["nim", "doc", docSeeUrl, "doc/api/collections/b.nim"]].get j) = true →
      (j : Nat) < (i : Nat)) := ⟨by decide, by decide⟩

theorem claim_C4_witness :
    [Event.write "doc/api/collections/a.nim" "A",
      Event.exec ["nim", "doc", docSeeUrl, "doc/api/collections/a.nim"],
      Event.write "doc/api/collections/b.nim" "B",
      Event.exec ["nim", "doc", docSeeUrl, "doc/api/collections/b.nim"]].length =
      2 * [["collections", "a.nim"], ["collections", "b.nim"]].length :=
  (claim_C4 (some (FTree.node [("a.nim", "A"), ("b.nim", "B")] Subdirs.nil))
    [["collections", "a.nim"], ["collections", "b.nim"]] _ (by decide)).1

theorem lookupFile_of_mem (files : List (String × String)) (n c : String)
    (hnd : nodupNames (files.map Prod.fst) = true) (hm : (n, c) ∈ files) :
    lookupFile files n = some c := by
  induction files with
  | nil => simp at hm
  | cons f rest ih =>
    obtain ⟨m, x⟩ := f
    simp [nodupNames] at hnd
    rcases List.mem_cons.mp hm with h2 | h2
    · simp at h2
      obtain ⟨rfl, rfl⟩ := h2
      simp [lookupFile]
    · have hne : ¬(m = n) := by
        intro hh
        subst hh
        exact hnd.1 c h2
      simp [lookupFile, hne, ih hnd.2 h2]

theorem subNames_of_entryMem : ∀ (subs : Subdirs) (n : String) (t : FTree),
    entryMem n t subs → n ∈ subNames subs
  | .nil, _, _, hm => hm.elim
  | .cons m u rest, n, t, hm => by
    rcases hm with ⟨rfl, rfl⟩ | h2
    · simp [subNames]
    · exact List.mem_cons.mpr (Or.inr (subNames_of_entryMem rest n t h2))

theorem lookupSub_entry : ∀ (subs : Subdirs) (n : String) (t : FTree),
    nodupNames (subNames subs) = true → entryMem n t subs → lookupSub subs n = some t
  | .nil, _, _, _, hm => hm.elim
  | .cons m u rest, n, t, hnd, hm => by
    simp [subNames, nodupNames] at hnd
    rcases hm with ⟨rfl, rfl⟩ | h2
    · simp [lookupSub]
    · have hne : ¬(m = n) := by
        intro hh
        subst hh
        exact hnd.1 (subNames_of_entryMem rest m t h2)
      simp [lookupSub, hne]
      exact lookupSub_entry rest n t hnd.2 h2

theorem wfSubs_entry : ∀ (subs : Subdirs) (n : String) (t : FTree),
    wfSubs subs = true → entryMem n t subs → wfTree t = true
  | .nil, _, _, _, hm => hm.elim
  | .cons m u rest, n, t, hwf, hm => by
    simp [wfSubs] at hwf
    rcases hm with ⟨rfl, rfl⟩ | h2
    · exact hwf.1
    · exact wfSubs_entry rest n t hwf.2 h2

theorem sizeOf_entry : ∀ (subs : Subdirs) (n : String) (t : FTree),
    entryMem n t subs → sizeOf t < sizeOf subs
  | .nil, _, _, hm => hm.elim
  | .cons m u rest, n, t, hm => by
    rcases hm with ⟨rfl, rfl⟩ | h2
    · simp
      omega
    · have := sizeOf_entry rest n t h2
      simp
      omega

theorem walkSubs_mem : ∀ (path : List String) (subs : Subdirs) (fr : Frame),
    fr ∈ walkSubs path subs → ∃ n t, entryMem n t subs ∧ fr ∈ walkTree (path ++ [n]) t
  | path, .nil, fr, h => by simp [walkSubs] at h
  | path, .cons m u rest, fr, h => by
    rw [walkSubs] at h
    rcases List.mem_append.mp h with h2 | h2
    · exact ⟨m, u, Or.inl ⟨rfl, rfl⟩, h2⟩
    · obtain ⟨n, t, he, hw⟩ := walkSubs_mem path rest fr h2
      exact ⟨n, t, Or.inr he, hw⟩

theorem walk_read (N : Nat) : ∀ (t : FTree), sizeOf t ≤ N → wfTree t = true →
    ∀ (path : List String) (fr : Frame), fr ∈ walkTree path t →
    ∀ (n c : String), (n, c) ∈ fr.files →
    ∃ suf, fr.root = path ++ suf ∧ readTree (suf ++ [n]) t = some c := by
  induction N with
  | zero =>
    intro t hsz
    cases t with
    | node files subs =>
      simp at hsz
  | succ N ih =>
    intro t hsz hwf path fr hmem n c hfile
    cases t with
    | node files subs =>
      simp [wfTree, Bool.and_eq_true] at hwf
      rw [walkTree] at hmem
      rcases List.mem_cons.mp hmem with h2 | h2
      · subst h2
        refine ⟨[], by simp, ?_⟩
        show readTree [n] (FTree.node files subs) = some c
        rw [readTree]
        exact lookupFile_of_mem files n c hwf.1.1 hfile
      · obtain ⟨m, u, hentry, hmem2⟩ := walkSubs_mem path subs fr h2
        have hwfu : wfTree u = true := wfSubs_entry subs m u hwf.2 hentry
        have hszu : sizeOf u ≤ N := by
          have h3 := sizeOf_entry subs m u hentry
          simp at hsz
          omega
        obtain ⟨suf, hroot, hread⟩ := ih u hszu hwfu (path ++ [m]) fr hmem2 n c hfile
        refine ⟨m :: suf, by rw [hroot]; simp, ?_⟩
        rcases hsn : suf ++ [n] with _ | ⟨e, rest2⟩
        · exact absurd hsn (by simp)
        · show readTree ((m :: suf) ++ [n]) (FTree.node files subs) = some c
          rw [List.cons_append, hsn, readTree, lookupSub_entry subs m u hwf.1.2 hentry]
          show readTree (e :: rest2) u = some c
          rw [← hsn]
          exact hread

theorem stage1_nims_readable (t : FTree) (hwf : wfTree t = true) (p : List String)
    (hp : p ∈ (osWalkCollections (some t)).flatMap nimsOf) :
    ∃ c, readCol (some t) p = some c := by
  simp only [osWalkCollections, List.mem_flatMap] at hp
  obtain ⟨fr, hfr, hpn⟩ := hp
  simp only [nimsOf, List.mem_map, List.mem_filter] at hpn
  obtain ⟨⟨fn, fc⟩, ⟨hmem, _⟩, hpe⟩ := hpn
  obtain ⟨suf, hroot, hread⟩ :=
    walk_read (sizeOf t) t le_rfl hwf ["collections"] fr hfr fn fc hmem
  refine ⟨fc, ?_⟩
  rw [← hpe, hroot]
  show readCol (some t) ("collections" :: (suf ++ [fn])) = some fc
  rw [readCol]
  exact hread

/-- C5 (confirmed): for a well-formed source tree, every collected `.nim`
path is readable, the export loop succeeds, and the content written to the
mirrored `doc/api/` path is exactly the content read from the source file
(round-trip identity). -/
theorem claim_C5 (t : FTree) (dirs0 : List String) (st : St)
    (hwf : wfTree t = true) (h1 : stage1 (some t) dirs0 = Except.ok st) :
    (∃ evs, stage23 (some t) st.nims = Except.ok evs) ∧
    ∀ evs, stage23 (some t) st.nims = Except.ok evs →
      ∀ p ∈ st.nims, ∃ c, readCol (some t) p = some c ∧
        Event.write ("doc/api/" ++ renderPath p) c ∈ evs := by
  obtain ⟨st2, hst2, hnims, _⟩ := stage1_spec (some t) dirs0
  rw [h1] at hst2
  injection hst2 with h2
  subst h2
  have hread : ∀ p ∈ st.nims, ∃ c, readCol (some t) p = some c := by
    intro p hp
    exact stage1_nims_readable t hwf p (by rw [← hnims]; exact hp)
  refine ⟨stage23_ok _ _ hread, ?_⟩
  intro evs hevs p hp
  obtain ⟨c, hc⟩ := hread p hp
  exact ⟨c, hc, stage23_mem_write _ _ _ hevs p hp c hc⟩

theorem claim_C5_witness :
    ∃ evs, stage23
      (some (FTree.node [] (Subdirs.cons "foo" (FTree.node [("bar.nim", "X")] Subdirs.nil) Subdirs.nil)))
      (St.mk [Event.mkdir "doc/api", Event.mkdir "doc/api/collections",
          Event.mkdir "doc/api/collections/foo"]
        ["doc/api/collections/foo", "doc/api/collections", "doc/api"]
        [["collections", "foo", "bar.nim"]]).nims = Except.ok evs :=
  (claim_C5
    (FTree.node [] (Subdirs.cons "foo" (FTree.node [("bar.nim", "X")] Subdirs.nil) Subdirs.nil))
    [] _ (by decide) (by decide)).1

/-- C8 (confirmed): every directory the walk visits has its mirrored
directory under `doc/api/` when stage 1 finishes; a directory that already
exists is skipped without a creation event (and without error, since
stage 1 always returns `ok`); and in the whole trace every `mkdir`
precedes every file write. -/
theorem claim_C8 (col : Option FTree) (dirs0 : List String) (st : St)
    (h : stage1 col dirs0 = Except.ok st) :
    (∀ fr ∈ osWalkCollections col, mirrorDir fr ∈ st.dirs) ∧
    (∀ d ∈ dirs0, Event.mkdir d ∉ st.evs) ∧
    (∀ (docRst docHtml : FTree) (evs : List Event),
      script col dirs0 docRst docHtml = Except.ok evs →
      ∀ i j a b, evs.get? i = some a → isMkdir a = true →
        evs.get? j = some b → isWrite b = true → i < j) := by
  obtain ⟨st2, hst2, hnims, hsub, hmir, hevs⟩ := stage1_spec col dirs0
  rw [h] at hst2
  injection hst2 with h2
  subst h2
  refine ⟨hmir, ?_, ?_⟩
  · intro d hd hmem
    obtain ⟨d2, he2, hnd⟩ := hevs _ hmem
    injection he2 with h3
    subst h3
    exact hnd hd
  · intro docRst docHtml evs hscript i j a b hi ha hj hb
    simp only [script, h] at hscript
    rcases hs23 : stage23 col st.nims with e | evs2 <;> rw [hs23] at hscript
    · exact absurd hscript (by simp)
    · simp only [Except.ok.injEq] at hscript
      subst hscript
      rw [List.append_assoc, List.append_assoc] at hi hj
      refine before_append isMkdir isWrite st.evs
        (evs2 ++ (rstStage docRst ++ htmlStage docHtml)) ?_ ?_ i j a b hi ha hj hb
      · intro e he
        rcases List.mem_append.mp he with h4 | h4
        · exact (stage23_events col st.nims evs2 hs23 e h4).1
        · rcases List.mem_append.mp h4 with h5 | h5
          · exact (rstStage_events docRst e h5).1
          · exact (htmlStage_events docHtml e h5).1
      · intro e he
        obtain ⟨d2, he2, _⟩ := hevs e he
        subst he2
        rfl

/-- C9 (confirmed): in every successful run, every `nim doc` invocation
precedes every `nim rst2html` invocation, and the `rst2html` invocations
are exactly those on walked `doc/` paths ending in `.rst` and not
containing `#`. -/
theorem claim_C9 (col : Option FTree) (dirs0 : List String) (docRst docHtml : FTree)
    (evs : List Event) (h : script col dirs0 docRst docHtml = Except.ok evs) :
    (∀ i j a b, evs.get? i = some a → isDocExec a = true →
      evs.get? j = some b → isRstExec b = true → i < j) ∧
    (∀ p : String, Event.exec ["nim", "rst2html", p] ∈ evs ↔ p ∈ rstPaths docRst) := by
  obtain ⟨st2, hst2, hnims, hsub, hmir, hevs⟩ := stage1_spec col dirs0
  simp only [script, hst2] at h
  rcases hs23 : stage23 col st2.nims with e | evs2 <;> rw [hs23] at h
  · exact absurd h (by simp)
  · simp only [Except.ok.injEq] at h
    subst h
    constructor
    · intro i j a b hi ha hj hb
      rw [List.append_assoc ((st2.evs ++ evs2)) (rstStage docRst) (htmlStage docHtml)] at hi hj
      refine before_append isDocExec isRstExec (st2.evs ++ evs2)
        (rstStage docRst ++ htmlStage docHtml) ?_ ?_ i j a b hi ha hj hb
      · intro e he
        rcases List.mem_append.mp he with h4 | h4
        · exact (rstStage_events docRst e h4).2.2.1
        · exact (htmlStage_events docHtml e h4).2.2.1
      · intro e he
        rcases List.mem_append.mp he with h4 | h4
        · obtain ⟨d2, he2, _⟩ := hevs e h4
          subst he2
          rfl
        · exact (stage23_events col st2.nims evs2 hs23 e h4).2
    · intro p
      constructor
      · intro hmem
        rcases List.mem_append.mp hmem with h4 | h4
        · rcases List.mem_append.mp h4 with h5 | h5
          · rcases List.mem_append.mp h5 with h6 | h6
            · obtain ⟨d2, he2, _⟩ := hevs _ h6
              exact absurd he2 (by simp)
            · have := (stage23_events col st2.nims evs2 hs23 _ h6).2
              exact absurd this (by simp [isRstExec])
          · simp only [rstStage, List.mem_map] at h5
            obtain ⟨q, hq, he2⟩ := h5
            simp at he2
            rwa [← he2]
        · have := (htmlStage_events docHtml _ h4).2.1
          exact absurd this (by simp [isWrite])
      · intro hp
        have hmem : Event.exec ["nim", "rst2html", p] ∈ rstStage docRst := by
          simp only [rstStage, List.mem_map]
          exact ⟨p, hp, rfl⟩
        exact List.mem_append.mpr (Or.inl (List.mem_append.mpr (Or.inr hmem)))

theorem claim_C8_witness :
    stage1 (some (FTree.node [("a.nim", "A")] Subdirs.nil)) [] = Except.ok
      ⟨[Event.mkdir "doc/api", Event.mkdir "doc/api/collections"],
        ["doc/api/collections", "doc/api"], [["collections", "a.nim"]]⟩ ∧
    (0 : Nat) < 2 := by
  have h : stage1 (some (FTree.node [("a.nim", "A")] Subdirs.nil)) [] = Except.ok
      ⟨[Event.mkdir "doc/api", Event.mkdir "doc/api/collections"],
        ["doc/api/collections", "doc/api"], [["collections", "a.nim"]]⟩ := by decide
  refine ⟨h, ?_⟩
  exact (claim_C8 _ _ _ h).2.2 (FTree.node [] Subdirs.nil) (FTree.node [] Subdirs.nil)
    [Event.mkdir "doc/api", Event.mkdir "doc/api/collections",
      Event.write "doc/api/collections/a.nim" "A",
      Event.exec ["nim", "doc", docSeeUrl, "doc/api/collections/a.nim"]]
    (by decide) 0 2 (Event.mkdir "doc/api") (Event.write "doc/api/collections/a.nim" "A")
    (by decide) (by decide) (by decide) (by decide)

theorem claim_C9_witness :
    script (some (FTree.node [("a.nim", "A")] Subdirs.nil)) []
      (FTree.node [("i.rst", "r")] Subdirs.nil) (FTree.node [] Subdirs.nil) = Except.ok
      [Event.mkdir "doc/api", Event.mkdir "doc/api/collections",
        Event.write "doc/api/collections/a.nim" "A",
        Event.exec ["nim", "doc", docSeeUrl, "doc/api/collections/a.nim"],
        Event.exec ["nim", "rst2html", "doc/i.rst"]] ∧
    (3 : Nat) < 4 := by
  have h : script (some (FTree.node [("a.nim", "A")] Subdirs.nil)) []
      (FTree.node [("i.rst", "r")] Subdirs.nil) (FTree.node [] Subdirs.nil) = Except.ok
      [Event.mkdir "doc/api", Event.mkdir "doc/api/collections",
        Event.write "doc/api/collections/a.nim" "A",
        Event.exec ["nim", "doc", docSeeUrl, "doc/api/collections/a.nim"],
        Event.exec ["nim", "rst2html", "doc/i.rst"]] := by decide
  refine ⟨h, ?_⟩
  exact (claim_C9 _ _ _ _ _ h).1 3 4
    (Event.exec ["nim", "doc", docSeeUrl, "doc/api/collections/a.nim"])
    (Event.exec ["nim", "rst2html", "doc/i.rst"])
    (by decide) (by decide) (by decide) (by decide)
